import Mathlib

/-!
# Verification of the agentfs-opencode plugin core

Shallow embedding of the plugin's path translation (`src/hooks/path-rewrite.ts`),
tool-call tracking (`src/hooks/tool-tracking.ts`), session teardown
(`src/hooks/session.ts`) and mount controller (`src/agentfs/mount.ts`).

JavaScript strings are modelled as `List Char` (`JStr`); the JS string
primitives used by the source (`split`, `join`, `slice`, `startsWith`,
`endsWith`, `includes`) are given explicit executable definitions below with
the same semantics for the single-character separators the source uses.
Asynchronous store/filesystem/process effects are modelled by passing the
outcome of each external call in explicitly (an oracle record per operation),
and a thrown JS exception is an `Except`/`HookResult.thrown` value.
-/

namespace AgentFS

/-- JavaScript strings, modelled as lists of characters. -/
abbrev JStr := List Char

/-- JS `Array.prototype.join(sep)` for a single-character separator. -/
def jjoin (sep : Char) : List JStr → JStr
  | [] => []
  | [x] => x
  | x :: y :: xs => x ++ sep :: jjoin sep (y :: xs)

/-- JS `String.prototype.split(sep)` for a single-character separator:
splits at every occurrence of `sep`, keeping empty pieces
(`"".split("/") = [""]`, `"/a".split("/") = ["", "a"]`). -/
def jsplit (sep : Char) : JStr → List JStr
  | [] => [[]]
  | c :: cs =>
    if c = sep then [] :: jsplit sep cs
    else
      match jsplit sep cs with
      | [] => [[c]]
      | p :: ps => (c :: p) :: ps

/-- JS `s.endsWith(c)` for a single character: the last character is `c`. -/
def jEndsWith (c : Char) (s : JStr) : Bool := s.getLast? = some c

/-- JS `s.startsWith(c)` for a single character: the first character is `c`. -/
def jStartsWithChar (c : Char) (s : JStr) : Bool := s.head? = some c

/-- JS `s.startsWith(pre)` for an arbitrary prefix string. -/
def jStartsWith (pre s : JStr) : Bool := pre.isPrefixOf s

/-- JS `s.includes(sub)`: substring containment (`sub` occurs contiguously
somewhere in `s`). -/
def jsIncludes (sub : JStr) : JStr → Bool
  | [] => sub.isEmpty
  | c :: cs => sub.isPrefixOf (c :: cs) || jsIncludes sub cs

/-! ## `normalizePath` (src/hooks/path-rewrite.ts, lines 28-52) -/

/-- The `..`-resolution loop of `normalizePath`: push every ordinary segment,
pop on `..` (popping an empty stack is a no-op, as `Array.prototype.pop`). -/
def resolveSegs (parts : List JStr) : List JStr :=
  parts.foldl (fun acc part => if part = ['.', '.'] then acc.dropLast else acc ++ [part]) []

/-- `normalizePath` from src/hooks/path-rewrite.ts: coerce to an absolute
slash-rooted form, strip a trailing slash, drop empty and `.` segments,
resolve `..` segments, and rebuild as `"/" + segments.join("/")`. -/
def normalizePath (path : JStr) : JStr :=
  if path = [] ∨ path = ['/'] then ['/']
  else
    let n1 := if jEndsWith '/' path ∧ path ≠ ['/'] then path.dropLast else path
    let n2 := if jStartsWithChar '/' n1 then n1 else '/' :: n1
    let parts := (jsplit '/' n2).filter (fun p => p ≠ [] ∧ p ≠ ['.'])
    '/' :: jjoin '/' (resolveSegs parts)

/-! ## `toMountPath` / `toProjectPath` (src/hooks/path-rewrite.ts, lines 58-114) -/

/-- `toMountPath` from src/hooks/path-rewrite.ts: translate a project-side
path into the mount namespace.  The source binds the three normalized paths
to local constants; here each occurrence is written out in full. -/
def toMountPath (virtualPath projectPath mountPath : JStr) : JStr :=
  if normalizePath projectPath = ['/'] then
    if normalizePath mountPath = ['/'] then normalizePath virtualPath
    else normalizePath mountPath ++
      (if normalizePath virtualPath = ['/'] then [] else normalizePath virtualPath)
  else if normalizePath virtualPath = normalizePath projectPath then
    normalizePath mountPath
  else if jStartsWith (normalizePath projectPath ++ ['/']) (normalizePath virtualPath) then
    if normalizePath mountPath = ['/'] then
      (normalizePath virtualPath).drop (normalizePath projectPath).length
    else
      normalizePath mountPath ++
        (normalizePath virtualPath).drop (normalizePath projectPath).length
  else normalizePath virtualPath

/-- `toProjectPath` from src/hooks/path-rewrite.ts: translate a mount-side
path back into the project namespace (mirror image of `toMountPath`). -/
def toProjectPath (agentPath projectPath mountPath : JStr) : JStr :=
  if normalizePath mountPath = ['/'] then
    if normalizePath projectPath = ['/'] then normalizePath agentPath
    else normalizePath projectPath ++
      (if normalizePath agentPath = ['/'] then [] else normalizePath agentPath)
  else if normalizePath agentPath = normalizePath mountPath then
    normalizePath projectPath
  else if jStartsWith (normalizePath mountPath ++ ['/']) (normalizePath agentPath) then
    if normalizePath projectPath = ['/'] then
      (normalizePath agentPath).drop (normalizePath mountPath).length
    else
      normalizePath projectPath ++
        (normalizePath agentPath).drop (normalizePath mountPath).length
  else normalizePath agentPath

/-! ## `rewritePathsInString` (src/hooks/path-rewrite.ts, lines 130-143)

The source builds the regex `escaped(from)(?=/|\s|"|'|$)` (the path is
regex-escaped, so it matches literally) and performs a global replace.  A
global replace scans left to right; at a match it emits the replacement and
resumes after the matched text (the lookahead consumes nothing).  `\s` is
modelled by `Char.isWhitespace`. -/

/-- The lookahead `(?=/|\s|"|'|$)`: the rest of the string is empty or starts
with a path separator, whitespace, or a quote character (`Char.ofNat 39` is
the single-quote character). -/
def boundaryOk : JStr → Bool
  | [] => true
  | c :: _ => c = '/' || c.isWhitespace || c = '"' || c = Char.ofNat 39

/-- One left-to-right global-replace pass: at each position, if `f` matches
literally and the lookahead holds, emit `t` and resume after the match;
otherwise keep the character and move on.  The `fuel` argument only bounds
the recursion (it is initialised to the string length, and a step never
needs more steps than characters remain). -/
def rewriteCoreFuel (f t : JStr) : Nat → JStr → JStr
  | _, [] => []
  | 0, s => s
  | fuel + 1, c :: cs =>
    if f ≠ [] ∧ jStartsWith f (c :: cs) ∧ boundaryOk ((c :: cs).drop f.length) then
      t ++ rewriteCoreFuel f t fuel ((c :: cs).drop f.length)
    else
      c :: rewriteCoreFuel f t fuel cs

/-- `rewritePathsInString` from src/hooks/path-rewrite.ts: normalize both
paths, return the text unchanged when they coincide, otherwise replace every
boundary-delimited occurrence of the normalized source path. -/
def rewritePathsInString (text fromPath toPath : JStr) : JStr :=
  if normalizePath fromPath = normalizePath toPath then text
  else rewriteCoreFuel (normalizePath fromPath) (normalizePath toPath) text.length text

/-! ## The before-hook path rewriter (src/hooks/path-rewrite.ts, lines 11-20
and 217-302) -/

/-- `PATH_TOOLS` from src/hooks/path-rewrite.ts: the tools whose arguments
are rewritten, each with its list of path-carrying argument fields. -/
def PATH_TOOLS (key : String) : Option (List String) :=
  if key = "read" then some ["filePath"]
  else if key = "write" then some ["filePath"]
  else if key = "edit" then some ["filePath"]
  else if key = "glob" then some ["path"]
  else if key = "grep" then some ["path"]
  else if key = "bash" then some ["command"]
  else none

/-- A JS argument value as the hook observes it: a string, or anything else
(the hook only checks `typeof value === "string"`). -/
inductive ArgVal
  | vstr (s : JStr)
  | vother
deriving DecidableEq

/-- The session data the before-hook reads after `getSession`:
`session.mount.mounted`, `session.projectPath`, `session.mount.mountPath`. -/
structure RewriteSession where
  mounted : Bool
  projectPath : JStr
  mountPath : JStr

/-- JS `String.prototype.toLowerCase()`: lower-case each character
(character-by-character map, as for the ASCII tool names the hook sees). -/
def jsToLower (s : String) : String := ⟨s.data.map Char.toLower⟩

/-- The body of the `for (const field of pathFields)` loop of
`createPathRewriteHandler`: skip a non-string field; for `bash`'s `command`
field rewrite embedded paths in the string, for the file-path fields apply
`toMountPath`; write the field back only when the value changed. -/
def rewriteField (s : RewriteSession) (tool : String)
    (acc : String → ArgVal) (field : String) : String → ArgVal :=
  match acc field with
  | ArgVal.vother => acc
  | ArgVal.vstr value =>
    if (jsToLower tool) = "bash" ∧ field = "command" then
      if rewritePathsInString value s.projectPath s.mountPath ≠ value then
        fun k => if k = field
          then ArgVal.vstr (rewritePathsInString value s.projectPath s.mountPath)
          else acc k
      else acc
    else
      if toMountPath value s.projectPath s.mountPath ≠ value then
        fun k => if k = field
          then ArgVal.vstr (toMountPath value s.projectPath s.mountPath)
          else acc k
      else acc

/-- The handler returned by `createPathRewriteHandler`
(src/hooks/path-rewrite.ts, lines 217-302), as a function from the argument
record to the (possibly updated) argument record.  `isLinux`, `autoMount`
and the `getSession` result are passed in explicitly; the args record is a
total map from field names to values (mutating `output.args[field]` is a
pointwise functional update). -/
def pathRewriteBefore (isLinux autoMount : Bool) (session : Option RewriteSession)
    (tool : String) (args : String → ArgVal) : String → ArgVal :=
  if ¬isLinux ∨ ¬autoMount then args
  else
    match session with
    | none => args
    | some s =>
      if ¬s.mounted then args
      else
        match PATH_TOOLS (jsToLower tool) with
        | none => args
        | some pathFields => pathFields.foldl (rewriteField s tool) args

/-! ## Tool-call tracking (src/hooks/tool-tracking.ts)

The `toolCallStarts` map is modelled as a total function from keys to
`Option TrackEntry` (a JS `Map` holds at most one entry per key; `set`
overwrites, `delete` removes).  The store handle `session.agent` is set by
`openDatabase` and absent until then (src/agentfs/client.ts,
`createSessionContext` builds the context without `agent`), so the
`getSession` result is modelled as `Option Bool`: `none` when no session
exists, `some hasAgent` otherwise.  The promise returned by
`session.agent.tools.start(...).catch(err => -1)` always resolves, to the
created record id on success and to `-1` on a store failure; its resolved
value is stored in the entry. -/

/-- `config.toolTracking` (the fields `shouldTrackTool` reads). -/
structure ToolTrackingConfig where
  enabled : Bool
  excludeTools : Option (List String)
  trackAll : Bool

/-- `shouldTrackTool` from src/hooks/tool-tracking.ts, lines 14-24. -/
def shouldTrackTool (tt : ToolTrackingConfig) (toolName : String) : Bool :=
  if ¬tt.enabled then false
  else if (match tt.excludeTools with
           | some l => l.contains toolName
           | none => false) then false
  else tt.trackAll

/-- `makeCallKey` from src/hooks/tool-tracking.ts, lines 10-12. -/
def makeCallKey (sessionId callId : String) : String :=
  sessionId ++ ":" ++ callId

/-- One entry of the `toolCallStarts` map: start time, and the resolved
value of the pending-record-id promise when one was started. -/
structure TrackEntry where
  startTime : Nat
  pendingId : Option Int
deriving DecidableEq

/-- The mutable state the tracking hooks touch: the `toolCallStarts` map and
a count of `session.agent.tools.start` invocations issued so far (i.e. of
pending records requested from the Store). -/
structure TrackState where
  entries : String → Option TrackEntry
  startCalls : Nat

/-- Outcome of invoking an async hook: it returned normally (with the new
state), or it threw / its promise rejected. -/
inductive HookResult (α : Type)
  | ok (a : α)
  | thrown (msg : String)
deriving DecidableEq

/-- Environment of one before-hook invocation: the `getSession` result
(`none`: no session; `some hasAgent`: a session whose `agent` handle is
present or absent), the eventual outcome of the `tools.start` promise, and
`Date.now()`. -/
structure BeforeEnv where
  session : Option Bool
  startResult : Except String Int
  now : Nat

/-- The handler returned by `createToolExecuteBeforeHandler`
(src/hooks/tool-tracking.ts, lines 26-52).  Note: when a session exists the
source accesses `session.agent.tools` without a guard, so an absent `agent`
handle raises a `TypeError` before the map is updated; a rejection of the
`tools.start` promise itself is caught by the attached `.catch` and mapped
to the sentinel id `-1`. -/
def toolExecuteBefore (tt : ToolTrackingConfig) (env : BeforeEnv)
    (tool sessionID callID : String) (st : TrackState) : HookResult TrackState :=
  if ¬shouldTrackTool tt tool then HookResult.ok st
  else
    let key := makeCallKey sessionID callID
    match env.session with
    | none =>
      HookResult.ok
        { entries := fun k => if k = key then some ⟨env.now, none⟩ else st.entries k
          startCalls := st.startCalls }
    | some hasAgent =>
      if ¬hasAgent then HookResult.thrown "TypeError: session.agent is undefined"
      else
        let pendingId : Int :=
          match env.startResult with
          | Except.ok i => i
          | Except.error _ => -1
        HookResult.ok
          { entries := fun k => if k = key then some ⟨env.now, some pendingId⟩ else st.entries k
            startCalls := st.startCalls + 1 }

/-- A Store call issued by the after-hook. -/
inductive StoreCall
  | errorCall (id : Int) (output : JStr)
  | successCall (id : Int)
  | recordCall (isError : Bool)
deriving DecidableEq

/-- Environment of one after-hook invocation: the `getSession` result and
the outcomes of the Store operations the hook may await (`tools.error`,
`tools.success`, `tools.record`). -/
structure AfterEnv where
  session : Option Bool
  errorResult : Except String Unit
  successResult : Except String Unit
  recordResult : Except String Unit

/-- The handler returned by `createToolExecuteAfterHandler`
(src/hooks/tool-tracking.ts, lines 54-120).  Returns the new map state and
the list of Store calls issued.  The error/success/record awaits all sit
inside the handler's `try { ... } catch`, so their failures never escape. -/
def toolExecuteAfter (tt : ToolTrackingConfig) (env : AfterEnv)
    (tool sessionID callID : String) (output : JStr) (st : TrackState) :
    HookResult (TrackState × List StoreCall) :=
  if ¬shouldTrackTool tt tool then HookResult.ok (st, [])
  else
    let key := makeCallKey sessionID callID
    let startData := st.entries key
    let st' : TrackState :=
      { entries := fun k => if k = key then none else st.entries k
        startCalls := st.startCalls }
    match startData with
    | none => HookResult.ok (st', [])
    | some entry =>
      match env.session with
      | none => HookResult.ok (st', [])
      | some _ =>
        -- try { ... } catch (err) { console.error(...) }: every Store await
        -- below is caught, so the handler returns normally regardless.
        let isError := jsIncludes "error".data output || jsIncludes "Error".data output
        match entry.pendingId with
        | some pendingId =>
          if pendingId > 0 then
            if isError then HookResult.ok (st', [StoreCall.errorCall pendingId output])
            else HookResult.ok (st', [StoreCall.successCall pendingId])
          else HookResult.ok (st', [StoreCall.recordCall isError])
        | none => HookResult.ok (st', [StoreCall.recordCall isError])

/-! ## Session teardown (src/hooks/session.ts, lines 170-211)

The `session.deleted` branch of the handler returned by
`createSessionHandler`.  The side-effecting steps (`kv.set("session:endedAt")`,
`closeDatabase`, `unmountOverlay`, `closeSession`) run sequentially inside a
single `try { ... } catch`; each step's outcome is supplied by the
environment, and the model returns the list of steps that were attempted. -/

/-- The four effectful teardown steps. -/
inductive TeardownStep
  | kvSetEndedAt
  | closeDb
  | unmount
  | removeSession
deriving DecidableEq

/-- Outcomes of the teardown steps (a `Except.error` models a rejected
await, which jumps to the surrounding `catch`). -/
structure TeardownEnv where
  kvSetEnd : Except String Unit
  closeDb : Except String Unit
  unmount : Except String Unit
  closeSess : Except String Unit

/-- The `session.deleted` branch: which steps are attempted, given whether a
session context exists, whether its `agent` handle is present, and whether
its mount is live.  Control leaves the `try` block at the first failing
step; the `catch` only logs, so the handler itself returns normally. -/
def sessionDeletedSteps (hasSession agentPresent mounted : Bool)
    (env : TeardownEnv) : List TeardownStep :=
  if ¬hasSession then []
  else
    let rest1 : List TeardownStep :=
      match env.closeDb with
      | Except.error _ => [TeardownStep.closeDb]
      | Except.ok _ =>
        TeardownStep.closeDb ::
          (if mounted then
            match env.unmount with
            | Except.error _ => [TeardownStep.unmount]
            | Except.ok _ => [TeardownStep.unmount, TeardownStep.removeSession]
          else [TeardownStep.removeSession])
    if agentPresent then
      match env.kvSetEnd with
      | Except.error _ => [TeardownStep.kvSetEndedAt]
      | Except.ok _ => TeardownStep.kvSetEndedAt :: rest1
    else rest1

/-! ## Mount controller (src/agentfs/mount.ts) -/

/-- `MountInfo` from src/agentfs/types.ts. -/
structure MountInfo where
  sessionId : String
  projectPath : JStr
  mountPath : JStr
  dbPath : JStr
  mounted : Bool
  pid : Option Nat
  error : Option JStr
deriving DecidableEq

/-- Environment of one `mountOverlay` call: whether `which agentfs`
succeeds, the `agentfs init` exit code and stderr, the pid of the spawned
mount process, and the result of `verifyMount` (`none` = verified,
`some msg` = verification failed with that message). -/
structure MountEnv where
  cliInstalled : Bool
  initExitCode : Nat
  initStderr : JStr
  mountPid : Nat
  verify : Option JStr

/-- `mountOverlay` from src/agentfs/mount.ts, lines 37-108: returns the
updated `MountInfo` together with `Except.error msg` when the source throws.
Note which failure paths touch `mount.error`: the CLI-missing and
init-failure paths throw without writing it; only the verification-failure
path sets it (line 99), and the success path clears it (line 106). -/
def mountOverlay (m : MountInfo) (env : MountEnv) : MountInfo × Except JStr Unit :=
  if m.mounted then (m, Except.ok ())
  else if ¬env.cliInstalled then
    (m, Except.error "AgentFS CLI not found. Install with: cargo install agentfs-cli".data)
  else if env.initExitCode ≠ 0 ∧ ¬jsIncludes "already exists".data env.initStderr then
    (m, Except.error ("Failed to initialize AgentFS: ".data ++ env.initStderr))
  else
    match env.verify with
    | some msg => ({ m with error := some msg }, Except.error msg)
    | none =>
      ({ m with mounted := true, pid := some env.mountPid, error := none }, Except.ok ())

/-- External commands `unmountOverlay` may run. -/
inductive UnmountCmd
  | killProc
  | fusermount
  | umount
deriving DecidableEq

/-- Environment of one `unmountOverlay` call: whether the process table has
an entry for the session, and the outcomes of spawning `fusermount -u` and
`umount` (`Except.error`: the spawn itself threw; `Except.ok code`: the
command ran and exited with `code`). -/
structure UnmountEnv where
  procTracked : Bool
  fusermountRun : Except String Nat
  umountRun : Except String Nat

/-- `unmountOverlay` from src/agentfs/mount.ts, lines 165-217: returns the
updated `MountInfo` and the external commands invoked.  All unmount-command
failures are swallowed by the nested `try`/`catch` blocks, and the final
`mounted = false` / `pid = undefined` writes are unconditional, so the
function is total (never throws). -/
def unmountOverlay (m : MountInfo) (env : UnmountEnv) : MountInfo × List UnmountCmd :=
  if ¬m.mounted then (m, [])
  else
    let killCmds : List UnmountCmd := if env.procTracked then [UnmountCmd.killProc] else []
    let unmountCmds : List UnmountCmd :=
      match env.fusermountRun with
      | Except.ok 0 => [UnmountCmd.fusermount]
      | _ => [UnmountCmd.fusermount, UnmountCmd.umount]
    ({ m with mounted := false, pid := none }, killCmds ++ unmountCmds)

/-! ## Auxiliary definitions for the claim statements -/

/-- A good path segment: what can appear in the output of `normalizePath`. -/
def Seg (s : JStr) : Prop := s ≠ [] ∧ s ≠ ['.'] ∧ s ≠ ['.', '.'] ∧ '/' ∉ s

/-- All segments of a list are good. -/
def Goods (ss : List JStr) : Prop := ∀ x ∈ ss, Seg x

/-- Rebuild a path from its segments, as `normalizePath` does:
`"/" + segments.join("/")`. -/
def mkPath (ss : List JStr) : JStr := '/' :: jjoin '/' ss

/-- The branch conditions of `toMountPath` that make a (normalized) path
`np` sit at or under a (normalized) root `nr`: the root is `/`, or the path
equals the root, or the path extends the root past a `/`. -/
def underRoot (np nr : JStr) : Prop :=
  nr = ['/'] ∨ np = nr ∨ jStartsWith (nr ++ ['/']) np = true

instance (np nr : JStr) : Decidable (underRoot np nr) := by
  unfold underRoot; infer_instance

/-- Extract the state from a before-hook result (a default for the thrown
case, which does not occur where this is used). -/
def beforeResultState (r : HookResult TrackState) (dflt : TrackState) : TrackState :=
  match r with
  | HookResult.ok st => st
  | HookResult.thrown _ => dflt

/-- Extract the Store calls from an after-hook result. -/
def afterResultCalls (r : HookResult (TrackState × List StoreCall)) : List StoreCall :=
  match r with
  | HookResult.ok (_, calls) => calls
  | HookResult.thrown _ => []

/-- Sample config: tracking enabled, no exclusions, track everything. -/
def ttAll : ToolTrackingConfig := ⟨true, none, true⟩

/-- Sample before-hook environment: session with a live store handle,
`tools.start` resolves to record id 1, `Date.now() = 5`. -/
def envOkStart : BeforeEnv := ⟨some true, Except.ok 1, 5⟩

/-- Empty tracking state. -/
def trackInit : TrackState := ⟨fun _ => none, 0⟩

/-- Sample after-hook environment: session present (handle state irrelevant
to the after path), all Store operations succeed. -/
def envAfter : AfterEnv := ⟨some true, Except.ok (), Except.ok (), Except.ok ()⟩

/-- Sample tracking state holding one pending entry for
`makeCallKey "sess" "call1"` with resolved pending record id 1. -/
def stEntry : TrackState :=
  ⟨fun k => if k = makeCallKey "sess" "call1" then some ⟨5, some 1⟩ else none, 1⟩

/-- Sample before-hook environment: the session exists but its store handle
`session.agent` is absent (as after a mounted startup, where `openDatabase`
is skipped and `createSessionContext` never set `agent`). -/
def envNoAgent : BeforeEnv := ⟨some false, Except.ok 1, 5⟩

/-- Teardown environment in which closing the database fails. -/
def tdEnvDbFail : TeardownEnv :=
  ⟨Except.ok (), Except.error "db close failed", Except.ok (), Except.ok ()⟩

/-- A fresh, unmounted `MountInfo`. -/
def m0 : MountInfo := ⟨"sess", "/a".data, "/m".data, "/db".data, false, none, none⟩

/-- Mount environment in which the `agentfs` CLI is not installed. -/
def envNoCli : MountEnv := ⟨false, 0, [], 7, none⟩

/-! ## Properties of the split/join primitives -/

theorem jsplit_ne_nil (sep : Char) (s : JStr) : jsplit sep s ≠ [] := by
  induction s with
  | nil => simp [jsplit]
  | cons c cs ih =>
    simp only [jsplit]
    split
    · simp
    · cases h : jsplit sep cs with
      | nil => simp
      | cons p ps => simp

theorem jsplit_sep_not_mem (sep : Char) (s : JStr) : ∀ x ∈ jsplit sep s, sep ∉ x := by
  induction s with
  | nil => simp [jsplit]
  | cons c cs ih =>
    simp only [jsplit]
    split
    · intro x hx
      rcases List.mem_cons.mp hx with h | h
      · subst h; simp
      · exact ih x h
    · rename_i hc
      cases h : jsplit sep cs with
      | nil => exact absurd h (jsplit_ne_nil sep cs)
      | cons p ps =>
        intro x hx
        rcases List.mem_cons.mp hx with h1 | h1
        · subst h1
          intro hmem
          rcases List.mem_cons.mp hmem with h2 | h2
          · exact hc h2.symm
          · exact ih p (h ▸ List.mem_cons_self p ps) h2
        · exact ih x (h ▸ List.mem_cons_of_mem p h1)

theorem jsplit_no_sep (sep : Char) (l : JStr) (h : sep ∉ l) : jsplit sep l = [l] := by
  induction l with
  | nil => simp [jsplit]
  | cons c cs ih =>
    have hc : ¬c = sep := fun e => h (e ▸ List.mem_cons_self c cs)
    have hcs : sep ∉ cs := fun m => h (List.mem_cons_of_mem c m)
    simp [jsplit, hc, ih hcs]

theorem jsplit_append_sep (sep : Char) (l rest : JStr) (h : sep ∉ l) :
    jsplit sep (l ++ sep :: rest) = l :: jsplit sep rest := by
  induction l with
  | nil => simp [jsplit]
  | cons c cs ih =>
    have hc : ¬c = sep := fun e => h (e ▸ List.mem_cons_self c cs)
    have hcs : sep ∉ cs := fun m => h (List.mem_cons_of_mem c m)
    simp [jsplit, hc, ih hcs]

theorem jjoin_cons (sep : Char) (x : JStr) (ys : List JStr) (h : ys ≠ []) :
    jjoin sep (x :: ys) = x ++ sep :: jjoin sep ys := by
  cases ys with
  | nil => exact absurd rfl h
  | cons y ys' => rfl

theorem jjoin_ne_nil (sep : Char) (ss : List JStr) (hne : ss ≠ [])
    (h : ∀ x ∈ ss, x ≠ []) : jjoin sep ss ≠ [] := by
  cases ss with
  | nil => exact absurd rfl hne
  | cons x ys =>
    cases ys with
    | nil => simpa [jjoin] using h x (List.mem_cons_self x [])
    | cons y ys' => simp [jjoin]

theorem jsplit_jjoin (sep : Char) (ss : List JStr) (hne : ss ≠ [])
    (h : ∀ x ∈ ss, sep ∉ x) : jsplit sep (jjoin sep ss) = ss := by
  induction ss with
  | nil => exact absurd rfl hne
  | cons x ys ih =>
    cases ys with
    | nil => simp [jjoin, jsplit_no_sep sep x (h x (by simp))]
    | cons y ys' =>
      rw [jjoin_cons sep x (y :: ys') (by simp),
        jsplit_append_sep sep x (jjoin sep (y :: ys')) (h x (by simp)),
        ih (by simp) (fun z hz => h z (List.mem_cons_of_mem _ hz))]

theorem jjoin_getLast_ne (sep : Char) (ss : List JStr) (hne : ss ≠ [])
    (h : ∀ x ∈ ss, x ≠ [] ∧ sep ∉ x) : (jjoin sep ss).getLast? ≠ some sep := by
  induction ss with
  | nil => exact absurd rfl hne
  | cons x ys ih =>
    cases ys with
    | nil =>
      simp only [jjoin]
      intro hc
      exact (h x (by simp)).2 (List.mem_of_mem_getLast? (by simp [hc]))
    | cons y ys' =>
      rw [jjoin_cons sep x (y :: ys') (by simp)]
      have hJ : jjoin sep (y :: ys') ≠ [] :=
        jjoin_ne_nil sep (y :: ys') (by simp)
          (fun z hz => (h z (List.mem_cons_of_mem _ hz)).1)
      rw [List.getLast?_append_of_ne_nil _ (by simp : sep :: jjoin sep (y :: ys') ≠ [])]
      obtain ⟨j, J', hJ'⟩ := List.exists_cons_of_ne_nil hJ
      have := ih (by simp) (fun z hz => h z (List.mem_cons_of_mem _ hz))
      rw [hJ'] at this ⊢
      rwa [List.getLast?_cons_cons]

theorem jjoin_append (sep : Char) (a b : List JStr) (ha : a ≠ []) (hb : b ≠ []) :
    jjoin sep (a ++ b) = jjoin sep a ++ sep :: jjoin sep b := by
  induction a with
  | nil => exact absurd rfl ha
  | cons x xs ih =>
    cases xs with
    | nil => simp [jjoin_cons sep x b hb, jjoin]
    | cons y ys =>
      rw [List.cons_append, jjoin_cons sep x ((y :: ys) ++ b) (by simp),
        ih (by simp), jjoin_cons sep x (y :: ys) (by simp)]
      simp

theorem jjoin_head_ne (sep : Char) (ss : List JStr)
    (h : ∀ x ∈ ss, x ≠ [] ∧ sep ∉ x) : (jjoin sep ss).head? ≠ some sep := by
  cases ss with
  | nil => simp [jjoin]
  | cons x ys =>
    obtain ⟨e, es, he⟩ := List.exists_cons_of_ne_nil (h x (by simp)).1
    have hes : sep ≠ e := fun hc => (h x (by simp)).2 (he ▸ hc ▸ List.mem_cons_self e es)
    cases ys with
    | nil => simp [jjoin, he]; exact fun hc => hes hc.symm
    | cons y ys' =>
      rw [jjoin_cons sep x (y :: ys') (by simp), he]
      simp
      exact fun hc => hes hc.symm

/-! ## Canonical form of normalized paths

`normalizePath` always returns `'/' :: jjoin '/' ss` for a list `ss` of
*good* segments: nonempty, not `.`, not `..`, slash-free. -/


theorem resolve_foldl_pred (P : JStr → Prop) (parts : List JStr) :
    ∀ acc : List JStr, (∀ x ∈ acc, P x) → (∀ x ∈ parts, x ≠ ['.', '.'] → P x) →
    ∀ x ∈ parts.foldl
      (fun acc part => if part = ['.', '.'] then acc.dropLast else acc ++ [part]) acc,
      P x := by
  induction parts with
  | nil => intro acc hacc _ x hx; exact hacc x hx
  | cons p ps ih =>
    intro acc hacc hparts x hx
    simp only [List.foldl_cons] at hx
    by_cases hp : p = ['.', '.']
    · rw [if_pos hp] at hx
      exact ih acc.dropLast
        (fun z hz => hacc z ((List.dropLast_prefix acc).subset hz))
        (fun z hz => hparts z (List.mem_cons_of_mem _ hz)) x hx
    · rw [if_neg hp] at hx
      refine ih (acc ++ [p]) ?_ (fun z hz => hparts z (List.mem_cons_of_mem _ hz)) x hx
      intro z hz
      rcases List.mem_append.mp hz with h | h
      · exact hacc z h
      · simp at h; exact h ▸ hparts p (List.mem_cons_self p ps) hp

theorem resolve_foldl_no_dotdot (parts : List JStr)
    (h : ∀ x ∈ parts, x ≠ ['.', '.']) :
    ∀ acc : List JStr,
      parts.foldl
        (fun acc part => if part = ['.', '.'] then acc.dropLast else acc ++ [part]) acc
        = acc ++ parts := by
  induction parts with
  | nil => simp
  | cons p ps ih =>
    intro acc
    simp only [List.foldl_cons]
    rw [if_neg (h p (List.mem_cons_self p ps))]
    rw [ih (fun z hz => h z (List.mem_cons_of_mem _ hz)) (acc ++ [p])]
    simp

theorem resolveSegs_no_dotdot (parts : List JStr)
    (h : ∀ x ∈ parts, x ≠ ['.', '.']) : resolveSegs parts = parts := by
  unfold resolveSegs
  simpa using resolve_foldl_no_dotdot parts h []

theorem normalizePath_canonical (p : JStr) :
    ∃ ss, Goods ss ∧ normalizePath p = mkPath ss := by
  by_cases h : p = [] ∨ p = ['/']
  · exact ⟨[], by intro x hx; simp at hx, by simp [normalizePath, h, mkPath, jjoin]⟩
  · simp only [normalizePath, if_neg h]
    refine ⟨_, ?_, rfl⟩
    intro x hx
    refine resolve_foldl_pred Seg _ [] (by simp) ?_ x hx
    intro z hz hz2
    rw [List.mem_filter] at hz
    obtain ⟨hzmem, hzpred⟩ := hz
    simp only [decide_eq_true_eq] at hzpred
    exact ⟨hzpred.1, hzpred.2, hz2, jsplit_sep_not_mem '/' _ z hzmem⟩

theorem mkPath_eq_root_iff (ss : List JStr) (h : Goods ss) :
    mkPath ss = ['/'] ↔ ss = [] := by
  constructor
  · intro he
    by_contra hne
    have : jjoin '/' ss ≠ [] := jjoin_ne_nil '/' ss hne (fun x hx => (h x hx).1)
    simp only [mkPath] at he
    exact this (by simpa using he)
  · intro he; simp [he, mkPath, jjoin]

theorem normalizePath_mkPath (ss : List JStr) (h : Goods ss) :
    normalizePath (mkPath ss) = mkPath ss := by
  cases hss : ss with
  | nil => simp [mkPath, jjoin, normalizePath]
  | cons s0 ss' =>
    subst hss
    have hne : (s0 :: ss') ≠ [] := by simp
    have hJ : jjoin '/' (s0 :: ss') ≠ [] :=
      jjoin_ne_nil '/' _ hne (fun x hx => (h x hx).1)
    have hnotroot : mkPath (s0 :: ss') ≠ ['/'] := by
      rw [mkPath]; intro he; exact hJ (by simpa using he)
    have hcond : ¬(mkPath (s0 :: ss') = [] ∨ mkPath (s0 :: ss') = ['/']) := by
      push_neg
      exact ⟨by simp [mkPath], hnotroot⟩
    simp only [normalizePath]
    rw [if_neg hcond]
    have hlast : jEndsWith '/' (mkPath (s0 :: ss')) = false := by
      have hg := jjoin_getLast_ne '/' _ hne (fun x hx => ⟨(h x hx).1, (h x hx).2.2.2⟩)
      obtain ⟨j, J', hJ'⟩ := List.exists_cons_of_ne_nil hJ
      simp only [jEndsWith, mkPath, decide_eq_false_iff_not]
      rw [hJ', List.getLast?_cons_cons]
      rw [hJ'] at hg
      exact hg
    rw [if_neg (show ¬(jEndsWith '/' (mkPath (s0 :: ss')) = true ∧ mkPath (s0 :: ss') ≠ ['/'])
      from by simp [hlast])]
    have hstart : jStartsWithChar '/' (mkPath (s0 :: ss')) = true := by
      simp [jStartsWithChar, mkPath]
    rw [if_pos hstart]
    have hsplit : jsplit '/' (mkPath (s0 :: ss')) = [] :: (s0 :: ss') := by
      rw [mkPath]
      rw [show jsplit '/' ('/' :: jjoin '/' (s0 :: ss'))
            = [] :: jsplit '/' (jjoin '/' (s0 :: ss')) from by simp [jsplit]]
      rw [jsplit_jjoin '/' _ hne (fun x hx => (h x hx).2.2.2)]
    rw [hsplit]
    have hfilter :
        ([] :: (s0 :: ss')).filter (fun p => decide (p ≠ [] ∧ p ≠ ['.'])) =
          s0 :: ss' := by
      rw [List.filter_cons]
      rw [if_neg (by simp)]
      exact List.filter_eq_self.mpr (fun x hx => by
        simp only [decide_eq_true_eq]
        exact ⟨(h x hx).1, (h x hx).2.1⟩)
    rw [hfilter]
    rw [resolveSegs_no_dotdot _ (fun x hx => (h x hx).2.2.1)]
    rfl

theorem normalizePath_idem (p : JStr) :
    normalizePath (normalizePath p) = normalizePath p := by
  obtain ⟨ss, hg, he⟩ := normalizePath_canonical p
  rw [he, normalizePath_mkPath ss hg]

/-! ## Decomposition of paths under a root -/

theorem mkPath_append (a b : List JStr) (ha : a ≠ []) (hb : b ≠ []) :
    mkPath (a ++ b) = mkPath a ++ '/' :: jjoin '/' b := by
  simp only [mkPath, jjoin_append '/' a b ha hb]
  rfl

theorem mkPath_ne_of_append (a b : List JStr) (hb : b ≠ [])
    (hbe : ∀ x ∈ b, x ≠ []) : mkPath (a ++ b) ≠ mkPath a := by
  cases ha : a with
  | nil =>
    simp only [List.nil_append]
    intro he
    exact (jjoin_ne_nil '/' b hb hbe) (by simpa [mkPath, jjoin] using he)
  | cons a0 a' =>
    rw [← ha, mkPath_append a b (by simp [ha]) hb]
    intro he
    have := congrArg List.length he
    simp at this

theorem mkPath_pref_append (a b : List JStr) (ha : a ≠ []) (hb : b ≠ []) :
    jStartsWith (mkPath a ++ ['/']) (mkPath (a ++ b)) = true := by
  rw [jStartsWith, List.isPrefixOf_iff_prefix, mkPath_append a b ha hb]
  exact ⟨jjoin '/' b, by simp⟩

theorem mkPath_drop_append (a b : List JStr) (ha : a ≠ []) (hb : b ≠ []) :
    (mkPath (a ++ b)).drop (mkPath a).length = '/' :: jjoin '/' b := by
  rw [mkPath_append a b ha hb, List.drop_left]

theorem block_eq (sep : Char) (x : JStr) :
    ∀ y u v : JStr, sep ∉ x → sep ∉ y →
    x ++ sep :: u = y ++ sep :: v → x = y ∧ u = v := by
  induction x with
  | nil =>
    intro y u v _ hy h
    cases y with
    | nil => simpa using h
    | cons d ds =>
      simp only [List.nil_append, List.cons_append, List.cons.injEq] at h
      exact absurd (h.1 ▸ List.mem_cons_self d ds) hy
  | cons e es ih =>
    intro y u v hx hy h
    cases y with
    | nil =>
      simp only [List.cons_append, List.nil_append, List.cons.injEq] at h
      exact absurd (h.1 ▸ List.mem_cons_self e es) hx
    | cons d ds =>
      simp only [List.cons_append, List.cons.injEq] at h
      obtain ⟨h1, h2⟩ := h
      have := ih ds u v (fun m => hx (List.mem_cons_of_mem e m))
        (fun m => hy (List.mem_cons_of_mem d m)) h2
      exact ⟨by rw [h1, this.1], this.2⟩

theorem jjoin_decomp (sep : Char) (a : List JStr) :
    ∀ (c : List JStr) (t : JStr),
    (∀ x ∈ a, x ≠ [] ∧ sep ∉ x) → (∀ x ∈ c, x ≠ [] ∧ sep ∉ x) →
    jjoin sep a ++ sep :: t = jjoin sep c →
    ∃ b, b ≠ [] ∧ c = a ++ b ∧ t = jjoin sep b := by
  induction a with
  | nil =>
    intro c t _ hc h
    simp only [jjoin, List.nil_append] at h
    have := jjoin_head_ne sep c hc
    rw [← h] at this
    simp at this
  | cons x xs ih =>
    intro c t ha hc h
    cases c with
    | nil =>
      simp only [jjoin] at h
      have : jjoin sep (x :: xs) ≠ [] :=
        jjoin_ne_nil sep (x :: xs) (by simp) (fun z hz => (ha z hz).1)
      exact absurd (List.append_eq_nil.mp h).1 this
    | cons c1 c' =>
      cases c' with
      | nil =>
        -- jjoin (x :: xs) ++ sep :: t = c1, but sep ∉ c1
        exfalso
        have hsep : sep ∈ jjoin sep (x :: xs) ++ sep :: t := by simp
        rw [h] at hsep
        simp only [jjoin] at hsep
        exact (hc c1 (by simp)).2 hsep
      | cons c2 c'' =>
        rw [jjoin_cons sep c1 (c2 :: c'') (by simp)] at h
        cases hxs : xs with
        | nil =>
          subst hxs
          simp only [jjoin] at h
          obtain ⟨hxc, htc⟩ := block_eq sep x c1 t (jjoin sep (c2 :: c''))
            (ha x (by simp)).2 (hc c1 (by simp)).2 h
          exact ⟨c2 :: c'', by simp, by rw [hxc]; rfl, htc⟩
        | cons x2 xs' =>
          rw [jjoin_cons sep x xs (by simp [hxs]), List.append_assoc,
            List.cons_append] at h
          obtain ⟨hxc, htc⟩ := block_eq sep x c1 (jjoin sep xs ++ sep :: t)
            (jjoin sep (c2 :: c'')) (ha x (by simp)).2 (hc c1 (by simp)).2 h
          obtain ⟨b, hbne, hcb, htb⟩ := ih (c2 :: c'') t
            (fun z hz => ha z (List.mem_cons_of_mem _ hz))
            (fun z hz => hc z (List.mem_cons_of_mem _ hz)) htc
          exact ⟨b, hbne, by rw [hxc, hcb, hxs]; rfl, htb⟩

theorem mkPath_pref_decomp (r c : List JStr) (hr : Goods r) (hc : Goods c)
    (h : jStartsWith (mkPath r ++ ['/']) (mkPath c) = true) :
    ∃ b, b ≠ [] ∧ c = r ++ b := by
  rw [jStartsWith, List.isPrefixOf_iff_prefix] at h
  obtain ⟨t, ht⟩ := h
  simp only [mkPath, List.cons_append, List.append_assoc, List.singleton_append,
    List.cons.injEq, true_and] at ht
  obtain ⟨b, hbne, hcb, _⟩ := jjoin_decomp '/' r c t
    (fun z hz => ⟨(hr z hz).1, (hr z hz).2.2.2⟩)
    (fun z hz => ⟨(hc z hz).1, (hc z hz).2.2.2⟩) ht
  exact ⟨b, hbne, hcb⟩

/-! ## Evaluating the path translators on decomposed paths -/

theorem toProjectPath_swap (v pj mp : JStr) : toProjectPath v pj mp = toMountPath v mp pj := rfl

theorem mkPath_inj (a c : List JStr) (ha : Goods a) (hc : Goods c)
    (h : mkPath a = mkPath c) : a = c := by
  simp only [mkPath, List.cons.injEq, true_and] at h
  by_cases hanil : a = []
  · subst hanil
    by_contra hne
    exact jjoin_ne_nil '/' c (Ne.symm hne) (fun x hx => (hc x hx).1) (by simp [jjoin] at h; exact h)
  · have hcnil : c ≠ [] := by
      intro hceq
      subst hceq
      exact jjoin_ne_nil '/' a hanil (fun x hx => (ha x hx).1) (by simpa [jjoin] using h)
    have := jsplit_jjoin '/' a hanil (fun x hx => (ha x hx).2.2.2)
    rw [← this, h, jsplit_jjoin '/' c hcnil (fun x hx => (hc x hx).2.2.2)]

theorem toMountPath_norm (v pj mp v' pj' mp' : JStr)
    (h1 : normalizePath v = normalizePath v') (h2 : normalizePath pj = normalizePath pj')
    (h3 : normalizePath mp = normalizePath mp') :
    toMountPath v pj mp = toMountPath v' pj' mp' := by
  simp only [toMountPath, h1, h2, h3]

theorem toMountPath_mkPath (r m b : List JStr) (hr : Goods r) (hm : Goods m)
    (hb : Goods b) :
    toMountPath (mkPath (r ++ b)) (mkPath r) (mkPath m) = mkPath (m ++ b) := by
  have hgrb : Goods (r ++ b) := fun x hx => (List.mem_append.mp hx).elim (hr x) (hb x)
  have nrb : normalizePath (mkPath (r ++ b)) = mkPath (r ++ b) := normalizePath_mkPath _ hgrb
  have nr : normalizePath (mkPath r) = mkPath r := normalizePath_mkPath _ hr
  have nm : normalizePath (mkPath m) = mkPath m := normalizePath_mkPath _ hm
  simp only [toMountPath, nrb, nr, nm]
  by_cases hrnil : r = []
  · subst hrnil
    rw [if_pos (show mkPath ([] : List JStr) = ['/'] from rfl)]
    simp only [List.nil_append]
    by_cases hmnil : m = []
    · subst hmnil
      rw [if_pos (show mkPath ([] : List JStr) = ['/'] from rfl)]
      simp
    · rw [if_neg (fun hh => hmnil ((mkPath_eq_root_iff m hm).mp hh))]
      by_cases hbnil : b = []
      · subst hbnil
        rw [if_pos (show mkPath ([] : List JStr) = ['/'] from rfl)]
        simp
      · rw [if_neg (fun hh => hbnil ((mkPath_eq_root_iff b hb).mp hh))]
        exact (mkPath_append m b hmnil hbnil).symm
  · rw [if_neg (fun hh => hrnil ((mkPath_eq_root_iff r hr).mp hh))]
    by_cases hbnil : b = []
    · subst hbnil
      simp only [List.append_nil]
      simp
    · rw [if_neg (mkPath_ne_of_append r b hbnil (fun x hx => (hb x hx).1))]
      rw [if_pos (mkPath_pref_append r b hrnil hbnil)]
      rw [mkPath_drop_append r b hrnil hbnil]
      by_cases hmnil : m = []
      · subst hmnil
        rw [if_pos (show mkPath ([] : List JStr) = ['/'] from rfl)]
        rfl
      · rw [if_neg (fun hh => hmnil ((mkPath_eq_root_iff m hm).mp hh))]
        exact (mkPath_append m b hmnil hbnil).symm


theorem underRoot_decomp (p root : JStr) (h : underRoot (normalizePath p) (normalizePath root))
    {c r : List JStr} (hcg : Goods c) (hrg : Goods r)
    (hpc : normalizePath p = mkPath c) (hrr : normalizePath root = mkPath r) :
    ∃ b, Goods b ∧ c = r ++ b := by
  rcases h with h | h | h
  · have hre : r = [] := (mkPath_eq_root_iff r hrg).mp (hrr.symm.trans h)
    exact ⟨c, hcg, by rw [hre, List.nil_append]⟩
  · have : c = r := mkPath_inj c r hcg hrg ((hpc.symm.trans h).trans hrr)
    exact ⟨[], by intro x hx; simp at hx, by rw [this, List.append_nil]⟩
  · rw [hpc, hrr] at h
    obtain ⟨b, _, hcb⟩ := mkPath_pref_decomp r c hrg hcg h
    exact ⟨b, fun x hx => hcg x (hcb ▸ List.mem_append_right r hx), hcb⟩

/-! ## Rewriting only at boundary-delimited occurrences -/

theorem normalizePath_ne_nil (p : JStr) : normalizePath p ≠ [] := by
  obtain ⟨ss, _, he⟩ := normalizePath_canonical p
  rw [he]; simp [mkPath]

theorem rewriteCoreFuel_no_match (f t : JStr) (s : JStr)
    (h : ∀ a b, s = a ++ f ++ b → boundaryOk b = false) :
    ∀ fuel, rewriteCoreFuel f t fuel s = s := by
  induction s with
  | nil => intro fuel; cases fuel <;> rfl
  | cons c cs ih =>
    intro fuel
    cases fuel with
    | zero => rfl
    | succ n =>
      simp only [rewriteCoreFuel]
      rw [if_neg ?hcond]
      case hcond =>
        rintro ⟨hf', hpre, hbound⟩
        rw [jStartsWith, List.isPrefixOf_iff_prefix] at hpre
        obtain ⟨u, hu⟩ := hpre
        have hdrop : (c :: cs).drop f.length = u := by rw [← hu, List.drop_left]
        have hfalse := h [] u (by rw [← hu]; simp)
        rw [hdrop, hfalse] at hbound
        exact Bool.false_ne_true hbound
      have ih' := ih (fun a b hab => h (c :: a) b (by rw [hab]; simp)) n
      rw [ih']

theorem rewritePathsInString_no_match (text fromPath toPath : JStr)
    (h : ∀ a b, text = a ++ normalizePath fromPath ++ b → boundaryOk b = false) :
    rewritePathsInString text fromPath toPath = text := by
  rw [rewritePathsInString]
  split
  · rfl
  · exact rewriteCoreFuel_no_match (normalizePath fromPath) (normalizePath toPath) text h
      text.length

/-! ## Paths outside the root pass through the translators -/

theorem toMountPath_outside (p root mount : JStr)
    (h : ¬underRoot (normalizePath p) (normalizePath root)) :
    toMountPath p root mount = normalizePath p := by
  rw [underRoot] at h
  push_neg at h
  obtain ⟨h1, h2, h3⟩ := h
  simp only [toMountPath]
  rw [if_neg h1, if_neg h2, if_neg h3]

theorem toProjectPath_outside (p root mount : JStr)
    (h : ¬underRoot (normalizePath p) (normalizePath mount)) :
    toProjectPath p root mount = normalizePath p := by
  rw [toProjectPath_swap]
  exact toMountPath_outside p mount root h

/-! ## Claim theorems -/

/-- **C4**: for every path `p` that is equal to or a descendant of
`projectRoot` (after normalization), and every `projectRoot` and `mountRoot`,
`toProjectPath (toMountPath p projectRoot mountRoot) projectRoot mountRoot`
equals `normalizePath p`. -/
theorem c4_translators_inverse (p root mount : JStr)
    (h : underRoot (normalizePath p) (normalizePath root)) :
    toProjectPath (toMountPath p root mount) root mount = normalizePath p := by
  obtain ⟨c, hcg, hpc⟩ := normalizePath_canonical p
  obtain ⟨r, hrg, hrr⟩ := normalizePath_canonical root
  obtain ⟨m, hmg, hmm⟩ := normalizePath_canonical mount
  obtain ⟨b, hbg, hcb⟩ := underRoot_decomp p root h hcg hrg hpc hrr
  have hgrb : Goods (r ++ b) := fun x hx => (List.mem_append.mp hx).elim (hrg x) (hbg x)
  have hgmb : Goods (m ++ b) := fun x hx => (List.mem_append.mp hx).elim (hmg x) (hbg x)
  have hpc' : normalizePath p = mkPath (r ++ b) := by rw [hpc, hcb]
  have e1 : toMountPath p root mount = toMountPath (mkPath (r ++ b)) (mkPath r) (mkPath m) :=
    toMountPath_norm _ _ _ _ _ _
      (by rw [hpc', normalizePath_mkPath _ hgrb])
      (by rw [hrr, normalizePath_mkPath _ hrg])
      (by rw [hmm, normalizePath_mkPath _ hmg])
  rw [e1, toMountPath_mkPath r m b hrg hmg hbg]
  have e2 : toProjectPath (mkPath (m ++ b)) root mount
      = toProjectPath (mkPath (m ++ b)) (mkPath r) (mkPath m) := by
    rw [toProjectPath_swap, toProjectPath_swap]
    exact toMountPath_norm _ _ _ _ _ _ rfl
      (by rw [hmm, normalizePath_mkPath _ hmg])
      (by rw [hrr, normalizePath_mkPath _ hrg])
  rw [e2, toProjectPath_swap, toMountPath_mkPath m r b hmg hrg hbg, hpc']

/-- Witness for C4 at `p = "/a/b/c"`, `projectRoot = "/a"`, `mountRoot = "/m/s"`. -/
theorem c4_translators_inverse_witness :
    underRoot (normalizePath "/a/b/c".data) (normalizePath "/a".data) ∧
    toProjectPath (toMountPath "/a/b/c".data "/a".data "/m/s".data) "/a".data "/m/s".data
      = normalizePath "/a/b/c".data :=
  ⟨by decide, c4_translators_inverse "/a/b/c".data "/a".data "/m/s".data (by decide)⟩

/-- **C9, counterexample**: the claim says `toMountPath` returns `p`
*unchanged* for `p` outside `projectRoot` and that the composition
`toProjectPath ∘ toMountPath` is the identity for *every* path outside
`projectRoot`.  Both parts fail on the code: a non-normalized outside path
`"/x/"` is returned normalized (`"/x"`), and a path outside `projectRoot`
but inside `mountRoot` (`"/m/x"` with `projectRoot = "/a"`,
`mountRoot = "/m"`) is passed through by `toMountPath` and then translated
by `toProjectPath` to `"/a/x" ≠ "/m/x"`. -/
theorem c9_counterexample :
    (¬underRoot (normalizePath "/x/".data) (normalizePath "/a".data) ∧
      toMountPath "/x/".data "/a".data "/m".data ≠ "/x/".data) ∧
    (¬underRoot (normalizePath "/m/x".data) (normalizePath "/a".data) ∧
      toProjectPath (toMountPath "/m/x".data "/a".data "/m".data) "/a".data "/m".data
        ≠ "/m/x".data) := by
  refine ⟨⟨by decide, by decide⟩, ⟨by decide, by decide⟩⟩

/-- **C9, amended**: for every path `p` outside `projectRoot` (in the
normalized sense), `toMountPath` returns `normalizePath p`; for every `p`
outside `mountRoot`, `toProjectPath` returns `normalizePath p`; and the
composition `toProjectPath ∘ toMountPath` returns `normalizePath p` for
every `p` outside **both** roots (so it is the identity on normalized paths
outside both). -/
theorem c9_outside_paths (p root mount : JStr) :
    (¬underRoot (normalizePath p) (normalizePath root) →
      toMountPath p root mount = normalizePath p) ∧
    (¬underRoot (normalizePath p) (normalizePath mount) →
      toProjectPath p root mount = normalizePath p) ∧
    (¬underRoot (normalizePath p) (normalizePath root) →
      ¬underRoot (normalizePath p) (normalizePath mount) →
      toProjectPath (toMountPath p root mount) root mount = normalizePath p) := by
  refine ⟨toMountPath_outside p root mount, toProjectPath_outside p root mount, ?_⟩
  intro hr hm
  rw [toMountPath_outside p root mount hr]
  rw [toProjectPath_outside (normalizePath p) root mount
    (by rw [normalizePath_idem]; exact hm)]
  exact normalizePath_idem p

/-- Witness for the amended C9 at `p = "/b/c"`, `projectRoot = "/a"`,
`mountRoot = "/m"`. -/
theorem c9_outside_paths_witness :
    (¬underRoot (normalizePath "/b/c".data) (normalizePath "/a".data)) ∧
    (¬underRoot (normalizePath "/b/c".data) (normalizePath "/m".data)) ∧
    toMountPath "/b/c".data "/a".data "/m".data = normalizePath "/b/c".data ∧
    toProjectPath (toMountPath "/b/c".data "/a".data "/m".data) "/a".data "/m".data
      = normalizePath "/b/c".data :=
  ⟨by decide, by decide,
    (c9_outside_paths "/b/c".data "/a".data "/m".data).1 (by decide),
    (c9_outside_paths "/b/c".data "/a".data "/m".data).2.2 (by decide) (by decide)⟩

/-- Converts a positionwise (bounded, decidable) no-boundary-occurrence check
into the decomposition form used by `rewritePathsInString_no_match`. -/
theorem no_match_of_positions (s f : JStr)
    (h : ∀ k : Fin (s.length + 1), jStartsWith f (s.drop k.val) = true →
      boundaryOk (s.drop (k.val + f.length)) = false) :
    ∀ a b, s = a ++ f ++ b → boundaryOk b = false := by
  intro a b hab
  have hlen : a.length ≤ s.length := by
    rw [hab]; simp only [List.length_append]; omega
  have h1 : s.drop a.length = f ++ b := by
    rw [hab, List.append_assoc, List.drop_left]
  have h2 : jStartsWith f (s.drop a.length) = true := by
    rw [h1, jStartsWith, List.isPrefixOf_iff_prefix]
    exact ⟨b, rfl⟩
  have h4 : s.drop (a.length + f.length) = b := by
    rw [hab, show a ++ f ++ b = (a ++ f) ++ b from rfl,
      show a.length + f.length = (a ++ f).length by simp, List.drop_left]
  have h3 := h ⟨a.length, by omega⟩ h2
  rwa [h4] at h3

/-- **C7**: `rewritePathsInString` rewrites an occurrence of the (normalized)
source path only when it is immediately followed by `/`, whitespace, a quote
character, or end-of-string: if every occurrence lacks such a boundary,
the text is returned unchanged.  In particular the distinct sibling path
`/home/user/project2/x` is never rewritten when translating from
`/home/user/project`, both by `rewritePathsInString` and by the
structured-argument translator `toMountPath`. -/
theorem c7_boundary_matches_only :
    (∀ text fromPath toPath : JStr,
      (∀ a b, text = a ++ normalizePath fromPath ++ b → boundaryOk b = false) →
      rewritePathsInString text fromPath toPath = text) ∧
    rewritePathsInString "cat /home/user/project2/x".data "/home/user/project".data
      "/mnt/ses_1".data = "cat /home/user/project2/x".data ∧
    toMountPath "/home/user/project2/x".data "/home/user/project".data "/mnt/ses_1".data
      = "/home/user/project2/x".data :=
  ⟨rewritePathsInString_no_match, by decide, by decide⟩

/-- Witness for C7's universally quantified part at
`text = "ls /p2"`, `fromPath = "/p"`, `toPath = "/q"`. -/
theorem c7_boundary_matches_only_witness :
    rewritePathsInString "ls /p2".data "/p".data "/q".data = "ls /p2".data :=
  c7_boundary_matches_only.1 "ls /p2".data "/p".data "/q".data
    (no_match_of_positions "ls /p2".data (normalizePath "/p".data) (by decide))

/-! ## Frame properties of the before-hook rewriter (C10) -/

theorem rewriteField_frame (s : RewriteSession) (tool : String)
    (acc : String → ArgVal) (field k : String) (hk : k ≠ field) :
    rewriteField s tool acc field k = acc k := by
  rw [rewriteField]
  rcases hv : acc field with v | _
  · dsimp only
    split
    · split
      · exact if_neg hk
      · rfl
    · split
      · exact if_neg hk
      · rfl
  · rfl

theorem rewriteField_skip (s : RewriteSession) (tool : String)
    (acc : String → ArgVal) (field : String) (hv : acc field = ArgVal.vother) :
    rewriteField s tool acc field = acc := by
  rw [rewriteField, hv]

theorem foldl_rewriteField_frame (s : RewriteSession) (tool : String)
    (fields : List String) :
    ∀ (args : String → ArgVal) (k : String), k ∉ fields →
      (fields.foldl (rewriteField s tool) args) k = args k := by
  induction fields with
  | nil => intro args k _; rfl
  | cons f fs ih =>
    intro args k hk
    simp only [List.foldl_cons]
    rw [ih (rewriteField s tool args f) k (fun m => hk (List.mem_cons_of_mem f m))]
    exact rewriteField_frame s tool args f k
      (fun e => hk (e ▸ List.mem_cons_self f fs))

theorem foldl_rewriteField_skip (s : RewriteSession) (tool : String)
    (fields : List String) :
    ∀ args : String → ArgVal, (∀ f ∈ fields, args f = ArgVal.vother) →
      fields.foldl (rewriteField s tool) args = args := by
  induction fields with
  | nil => intro args _; rfl
  | cons f fs ih =>
    intro args hargs
    simp only [List.foldl_cons]
    rw [rewriteField_skip s tool args f (hargs f (List.mem_cons_self f fs))]
    exact ih args (fun g hg => hargs g (List.mem_cons_of_mem f hg))

/-- **C10**: for every tool whose lowercased name is not one of
`read`/`write`/`edit`/`glob`/`grep`/`bash` (i.e. no `PATH_TOOLS` entry),
the before-hook rewrite returns the args unchanged; for a tool with a
`PATH_TOOLS` entry, every field outside the tool's configured field list is
unchanged, and when each configured field does not hold a string the whole
args record is unchanged. -/
theorem c10_args_frame (isLinux autoMount : Bool) (session : Option RewriteSession)
    (tool : String) (args : String → ArgVal) :
    (PATH_TOOLS (jsToLower tool) = none →
      pathRewriteBefore isLinux autoMount session tool args = args) ∧
    (∀ fields, PATH_TOOLS (jsToLower tool) = some fields →
      ∀ k, k ∉ fields →
        pathRewriteBefore isLinux autoMount session tool args k = args k) ∧
    (∀ fields, PATH_TOOLS (jsToLower tool) = some fields →
      (∀ f ∈ fields, args f = ArgVal.vother) →
      pathRewriteBefore isLinux autoMount session tool args = args) := by
  refine ⟨?_, ?_, ?_⟩
  · intro hnone
    rcases session with _ | s
    · rw [pathRewriteBefore.eq_def]
      split <;> rfl
    · rw [pathRewriteBefore.eq_def]
      dsimp only
      split
      · rfl
      · split
        · rfl
        · rw [hnone]
  · intro fields hsome k hk
    rcases session with _ | s
    · rw [pathRewriteBefore.eq_def]
      split <;> rfl
    · rw [pathRewriteBefore.eq_def]
      dsimp only
      split
      · rfl
      · split
        · rfl
        · rw [hsome]
          exact foldl_rewriteField_frame s tool fields args k hk
  · intro fields hsome hargs
    rcases session with _ | s
    · rw [pathRewriteBefore.eq_def]
      split <;> rfl
    · rw [pathRewriteBefore.eq_def]
      dsimp only
      split
      · rfl
      · split
        · rfl
        · rw [hsome]
          exact foldl_rewriteField_skip s tool fields args hargs

/-- Witness for C10: an untracked tool (`webfetch`) leaves args unchanged;
for `read`, a field other than `filePath` is untouched; and a `read` whose
`filePath` is not a string leaves args unchanged. -/
theorem c10_args_frame_witness :
    (PATH_TOOLS (jsToLower "webfetch") = none ∧
      pathRewriteBefore true true (some ⟨true, "/a".data, "/m".data⟩) "webfetch"
        (fun _ => ArgVal.vstr "/a/x".data) = fun _ => ArgVal.vstr "/a/x".data) ∧
    (PATH_TOOLS (jsToLower "read") = some ["filePath"] ∧
      pathRewriteBefore true true (some ⟨true, "/a".data, "/m".data⟩) "read"
        (fun _ => ArgVal.vstr "/a/x".data) "offset"
        = (fun _ => ArgVal.vstr "/a/x".data) "offset") ∧
    (pathRewriteBefore true true (some ⟨true, "/a".data, "/m".data⟩) "read"
      (fun _ => ArgVal.vother) = fun _ => ArgVal.vother) :=
  ⟨⟨by decide,
    (c10_args_frame true true (some ⟨true, "/a".data, "/m".data⟩) "webfetch"
      (fun _ => ArgVal.vstr "/a/x".data)).1 (by decide)⟩,
   ⟨by decide,
    (c10_args_frame true true (some ⟨true, "/a".data, "/m".data⟩) "read"
      (fun _ => ArgVal.vstr "/a/x".data)).2.1 ["filePath"] (by decide) "offset" (by decide)⟩,
   (c10_args_frame true true (some ⟨true, "/a".data, "/m".data⟩) "read"
      (fun _ => ArgVal.vother)).2.2 ["filePath"] (by decide) (fun f _ => rfl)⟩

/-! ## Tool-call tracking claims (C1, C2, C6) -/

/-- Substring containment agrees with `List.IsInfix`. -/
theorem jsIncludes_iff (sub s : JStr) : jsIncludes sub s = true ↔ sub <:+: s := by
  induction s with
  | nil => simp [jsIncludes, List.isEmpty_iff]
  | cons c cs ih =>
    simp only [jsIncludes, Bool.or_eq_true, List.isPrefixOf_iff_prefix, ih]
    exact (List.infix_cons_iff).symm


/-- Evaluating one before-hook invocation when the session exists and its
store handle is present: the handler returns normally, overwrites the map
entry for the key, and issues one `tools.start` call. -/
theorem toolExecuteBefore_agent_ok (tt : ToolTrackingConfig) (env : BeforeEnv)
    (tool sid cid : String) (st : TrackState)
    (htrack : shouldTrackTool tt tool = true) (hs : env.session = some true) :
    toolExecuteBefore tt env tool sid cid st =
      HookResult.ok
        { entries := fun k => if k = makeCallKey sid cid then
            some ⟨env.now,
              some (match env.startResult with | Except.ok i => i | Except.error _ => -1)⟩
            else st.entries k
          startCalls := st.startCalls + 1 } := by
  rw [toolExecuteBefore.eq_def, if_neg (by simp [htrack]), hs]
  dsimp only
  rw [if_neg (by simp)]

/-- **C1, counterexample**: the claim says a second begin for the same
`(sessionID, callID)` key is a no-op issuing no second `tools.start` call.
In the code `createToolExecuteBeforeHandler` has no duplicate check: running
the begin handler twice with the same key issues **two** `tools.start`
calls (two pending Store records), although the map still holds a single
entry for the key. -/
theorem c1_counterexample :
    (beforeResultState
        (toolExecuteBefore ttAll envOkStart "bash" "sess" "call1"
          (beforeResultState
            (toolExecuteBefore ttAll envOkStart "bash" "sess" "call1" trackInit) trackInit))
        trackInit).startCalls = 2 ∧
    ((beforeResultState
        (toolExecuteBefore ttAll envOkStart "bash" "sess" "call1"
          (beforeResultState
            (toolExecuteBefore ttAll envOkStart "bash" "sess" "call1" trackInit) trackInit))
        trackInit).entries (makeCallKey "sess" "call1")).isSome = true := by
  exact ⟨rfl, rfl⟩

/-- **C1, amended**: begin has no duplicate suppression: each begin for the
same key (with a session whose store handle is present) returns normally,
overwrites the single map entry for the key, and issues its own
`tools.start` call — so a duplicate begin leaves one pending map entry but
two pending Store records. -/
theorem c1_amended_duplicate_begin (tt : ToolTrackingConfig) (env1 env2 : BeforeEnv)
    (tool sid cid : String) (st : TrackState)
    (htrack : shouldTrackTool tt tool = true)
    (h1 : env1.session = some true) (h2 : env2.session = some true) :
    ∃ st1 st2,
      toolExecuteBefore tt env1 tool sid cid st = HookResult.ok st1 ∧
      toolExecuteBefore tt env2 tool sid cid st1 = HookResult.ok st2 ∧
      st1.startCalls = st.startCalls + 1 ∧
      st2.startCalls = st.startCalls + 2 ∧
      st2.entries (makeCallKey sid cid) =
        some ⟨env2.now,
          some (match env2.startResult with | Except.ok i => i | Except.error _ => -1)⟩ := by
  refine ⟨_, _, toolExecuteBefore_agent_ok tt env1 tool sid cid st htrack h1,
    toolExecuteBefore_agent_ok tt env2 tool sid cid _ htrack h2, rfl, rfl, by simp⟩

/-- Witness for the amended C1 at a concrete config, environment and key. -/
theorem c1_amended_duplicate_begin_witness :
    shouldTrackTool ttAll "bash" = true ∧ envOkStart.session = some true ∧
    (∃ st1 st2,
      toolExecuteBefore ttAll envOkStart "bash" "sess" "call1" trackInit = HookResult.ok st1 ∧
      toolExecuteBefore ttAll envOkStart "bash" "sess" "call1" st1 = HookResult.ok st2 ∧
      st1.startCalls = trackInit.startCalls + 1 ∧
      st2.startCalls = trackInit.startCalls + 2 ∧
      st2.entries (makeCallKey "sess" "call1") =
        some ⟨envOkStart.now,
          some (match envOkStart.startResult with
                | Except.ok i => i | Except.error _ => -1)⟩) :=
  ⟨rfl, rfl,
    c1_amended_duplicate_begin ttAll envOkStart envOkStart "bash" "sess" "call1" trackInit
      rfl rfl rfl⟩


/-- Evaluating one after-hook invocation when the call is tracked, a map
entry with a positive resolved pending id exists, and a session exists: the
entry is removed and exactly one terminal Store call is issued, chosen by
the substring check on the output. -/
theorem toolExecuteAfter_pending (tt : ToolTrackingConfig) (env : AfterEnv)
    (tool sid cid : String) (output : JStr) (st : TrackState) (t0 : Nat) (pid : Int)
    (hA : Bool) (htrack : shouldTrackTool tt tool = true)
    (hentry : st.entries (makeCallKey sid cid) = some ⟨t0, some pid⟩)
    (hpid : pid > 0) (hs : env.session = some hA) :
    toolExecuteAfter tt env tool sid cid output st =
      HookResult.ok
        ({ entries := fun k => if k = makeCallKey sid cid then none else st.entries k
           startCalls := st.startCalls },
         if jsIncludes "error".data output || jsIncludes "Error".data output
         then [StoreCall.errorCall pid output]
         else [StoreCall.successCall pid]) := by
  rw [toolExecuteAfter.eq_def, if_neg (by simp [htrack])]
  dsimp only
  rw [hentry]
  dsimp only
  rw [hs]
  dsimp only
  rw [if_pos hpid]
  split <;> rfl

/-- **C2, counterexample**: the claim says an output that merely contains
the word `error` somewhere (without a structured `error` field and without
an `Error:`/`error:` prefix) is classified as success.  The code classifies
by bare substring containment (`output.includes("error") ||
output.includes("Error")`, src/hooks/tool-tracking.ts line 80), so the
plain-text output `"found 3 errors in file"` — which does not begin with an
`Error:`/`error:` marker — is recorded as an **error**. -/
theorem c2_counterexample :
    afterResultCalls
      (toolExecuteAfter ttAll envAfter "bash" "sess" "call1"
        "found 3 errors in file".data stEntry)
      = [StoreCall.errorCall 1 "found 3 errors in file".data] ∧
    jStartsWith "Error:".data "found 3 errors in file".data = false ∧
    jStartsWith "error:".data "found 3 errors in file".data = false := by
  refine ⟨by decide, by decide, by decide⟩

/-- **C2, amended**: for a tracked completed call with a live pending
record, the end handler classifies the outcome as an error **iff** the raw
output contains the substring `"error"` or `"Error"` anywhere (there is no
structured parse and no prefix check), and as a success otherwise. -/
theorem c2_amended_substring (tt : ToolTrackingConfig) (env : AfterEnv)
    (tool sid cid : String) (output : JStr) (st : TrackState) (t0 : Nat) (pid : Int)
    (hA : Bool) (htrack : shouldTrackTool tt tool = true)
    (hentry : st.entries (makeCallKey sid cid) = some ⟨t0, some pid⟩)
    (hpid : pid > 0) (hs : env.session = some hA) :
    (afterResultCalls (toolExecuteAfter tt env tool sid cid output st)
        = [StoreCall.errorCall pid output] ↔
      ("error".data <:+: output ∨ "Error".data <:+: output)) ∧
    (afterResultCalls (toolExecuteAfter tt env tool sid cid output st)
        = [StoreCall.successCall pid] ↔
      ¬("error".data <:+: output ∨ "Error".data <:+: output)) := by
  rw [toolExecuteAfter_pending tt env tool sid cid output st t0 pid hA htrack hentry hpid hs]
  by_cases hc : (jsIncludes "error".data output || jsIncludes "Error".data output) = true
  · have hrhs : "error".data <:+: output ∨ "Error".data <:+: output := by
      rw [Bool.or_eq_true] at hc
      rcases hc with h | h
      · exact Or.inl ((jsIncludes_iff _ _).mp h)
      · exact Or.inr ((jsIncludes_iff _ _).mp h)
    rw [if_pos hc]
    simp [afterResultCalls, hrhs]
  · have hrhs : ¬("error".data <:+: output ∨ "Error".data <:+: output) := by
      simp only [Bool.or_eq_true, jsIncludes_iff] at hc
      exact hc
    rw [if_neg hc]
    simp [afterResultCalls, hrhs]

/-- Witness for the amended C2 at the success output `"all done"` and the
error output `"Error: no such file"`. -/
theorem c2_amended_substring_witness :
    (afterResultCalls
        (toolExecuteAfter ttAll envAfter "bash" "sess" "call1" "all done".data stEntry)
      = [StoreCall.successCall 1]) ∧
    (afterResultCalls
        (toolExecuteAfter ttAll envAfter "bash" "sess" "call1"
          "Error: no such file".data stEntry)
      = [StoreCall.errorCall 1 "Error: no such file".data]) :=
  ⟨((c2_amended_substring ttAll envAfter "bash" "sess" "call1" "all done".data stEntry
      5 1 true rfl (by decide) (by decide) rfl).2).mpr (by decide),
   ((c2_amended_substring ttAll envAfter "bash" "sess" "call1" "Error: no such file".data
      stEntry 5 1 true rfl (by decide) (by decide) rfl).1).mpr (by decide)⟩


/-- **C6**: the claim says both tracking handlers always return normally
even when the session's store handle is absent.  The after handler does
(every Store await sits in its `try`/`catch`), but the before handler
dereferences `session.agent.tools` without a guard (line 44), so with a
session whose `agent` is absent it raises a `TypeError` — the hook's
promise rejects, violating the spec's "never propagate" requirement.  This
theorem evaluates the code at the failing input and proves the after
handler total. -/
theorem c6_before_throws_without_agent :
    toolExecuteBefore ttAll envNoAgent "bash" "sess" "call1" trackInit
      = HookResult.thrown "TypeError: session.agent is undefined" ∧
    (∀ (tt : ToolTrackingConfig) (env : AfterEnv) (tool sid cid : String) (output : JStr)
      (st : TrackState),
      ∃ res, toolExecuteAfter tt env tool sid cid output st = HookResult.ok res) := by
  refine ⟨rfl, ?_⟩
  intro tt env tool sid cid output st
  rw [toolExecuteAfter.eq_def]
  dsimp only
  split
  · exact ⟨_, rfl⟩
  · split
    · exact ⟨_, rfl⟩
    · split
      · exact ⟨_, rfl⟩
      · split
        · split
          · split
            · exact ⟨_, rfl⟩
            · exact ⟨_, rfl⟩
          · exact ⟨_, rfl⟩
        · exact ⟨_, rfl⟩

/-! ## Session teardown claim (C3) -/


/-- **C3, counterexample**: the claim says the teardown attempts the
unmount even if closing the store raised, and removes the session from the
registry even if unmount raised.  The code wraps all four steps in a single
`try`/`catch` (src/hooks/session.ts lines 182-210), so when `closeDatabase`
rejects — with a live, mounted session — neither the unmount nor the
registry removal is attempted. -/
theorem c3_counterexample :
    sessionDeletedSteps true true true tdEnvDbFail
      = [TeardownStep.kvSetEndedAt, TeardownStep.closeDb] ∧
    TeardownStep.unmount ∉ sessionDeletedSteps true true true tdEnvDbFail ∧
    TeardownStep.removeSession ∉ sessionDeletedSteps true true true tdEnvDbFail := by
  refine ⟨by decide, by decide, by decide⟩

/-- **C3, amended**: the teardown steps run strictly in sequence inside one
`try`/`catch`: a failure in closing the database skips both the unmount and
the registry removal, a failure in the unmount skips the registry removal,
and only when every earlier step succeeds is the session removed from the
registry (the handler itself always returns normally, the `catch` only
logs). -/
theorem c3_amended_sequential_teardown (agentPresent mounted : Bool) (env : TeardownEnv) :
    (∀ e, env.closeDb = Except.error e →
      TeardownStep.unmount ∉ sessionDeletedSteps true agentPresent mounted env ∧
      TeardownStep.removeSession ∉ sessionDeletedSteps true agentPresent mounted env) ∧
    (∀ e, mounted = true → env.unmount = Except.error e →
      TeardownStep.removeSession ∉ sessionDeletedSteps true agentPresent mounted env) ∧
    ((agentPresent = true → env.kvSetEnd = Except.ok ()) →
      env.closeDb = Except.ok () → (mounted = true → env.unmount = Except.ok ()) →
      TeardownStep.removeSession ∈ sessionDeletedSteps true agentPresent mounted env) := by
  rcases env with ⟨kv, db, um, cs⟩
  refine ⟨?_, ?_, ?_⟩
  · intro e hdb
    dsimp only at hdb
    subst hdb
    cases agentPresent <;> rcases kv with kve | ⟨⟩ <;> cases mounted <;>
      simp [sessionDeletedSteps]
  · intro e hm hum
    dsimp only at hum
    subst hum
    subst hm
    cases agentPresent <;> rcases kv with kve | ⟨⟩ <;> rcases db with dbe | ⟨⟩ <;>
      simp [sessionDeletedSteps]
  · intro hkv hdb hum
    dsimp only at hkv hdb hum
    subst hdb
    cases agentPresent with
    | false =>
      cases mounted with
      | false => simp [sessionDeletedSteps]
      | true =>
        have := hum rfl
        subst this
        simp [sessionDeletedSteps]
    | true =>
      have := hkv rfl
      subst this
      cases mounted with
      | false => simp [sessionDeletedSteps]
      | true =>
        have := hum rfl
        subst this
        simp [sessionDeletedSteps]

/-- Witness for the amended C3: with an agent, a mount, and a failing
database close, neither unmount nor removal is attempted; with everything
succeeding, the session is removed. -/
theorem c3_amended_sequential_teardown_witness :
    (TeardownStep.unmount ∉ sessionDeletedSteps true true true tdEnvDbFail ∧
      TeardownStep.removeSession ∉ sessionDeletedSteps true true true tdEnvDbFail) ∧
    TeardownStep.removeSession ∈ sessionDeletedSteps true true true
      ⟨Except.ok (), Except.ok (), Except.ok (), Except.ok ()⟩ :=
  ⟨(c3_amended_sequential_teardown true true tdEnvDbFail).1 "db close failed" rfl,
   (c3_amended_sequential_teardown true true
      ⟨Except.ok (), Except.ok (), Except.ok (), Except.ok ()⟩).2.2
      (fun _ => rfl) rfl (fun _ => rfl)⟩

/-! ## Mount controller claims (C5, C8) -/


/-- **C5, counterexample**: the claim says every failure path of
`mountOverlay` sets the `MountInfo.error` field to the failure message.
On the CLI-missing path the code throws without touching `mount.error`
(src/agentfs/mount.ts line 51): the returned `MountInfo` is unchanged with
`error = none`, although the call raises. -/
theorem c5_counterexample :
    (mountOverlay m0 envNoCli).1 = m0 ∧
    (mountOverlay m0 envNoCli).1.error = none ∧
    (mountOverlay m0 envNoCli).2 =
      Except.error "AgentFS CLI not found. Install with: cargo install agentfs-cli".data := by
  refine ⟨rfl, rfl, rfl⟩

/-- **C5, amended**: for an unmounted `MountInfo`, `mountOverlay` on
success sets `mounted := true`, stores the spawned pid, and clears `error`;
on every failure path it leaves `mounted = false` and raises, but the
`error` field is written only on the mount-verification failure path — the
CLI-missing and init-failure paths raise with the `MountInfo` untouched. -/
theorem c5_amended_mount_error_field (m : MountInfo) (env : MountEnv)
    (hm : m.mounted = false) :
    (env.cliInstalled = false →
      mountOverlay m env =
        (m, Except.error
          "AgentFS CLI not found. Install with: cargo install agentfs-cli".data)) ∧
    (env.cliInstalled = true → env.initExitCode ≠ 0 →
      jsIncludes "already exists".data env.initStderr = false →
      mountOverlay m env =
        (m, Except.error ("Failed to initialize AgentFS: ".data ++ env.initStderr))) ∧
    (∀ msg, env.cliInstalled = true →
      (env.initExitCode = 0 ∨ jsIncludes "already exists".data env.initStderr = true) →
      env.verify = some msg →
      mountOverlay m env = ({ m with error := some msg }, Except.error msg)) ∧
    (env.cliInstalled = true →
      (env.initExitCode = 0 ∨ jsIncludes "already exists".data env.initStderr = true) →
      env.verify = none →
      mountOverlay m env =
        ({ m with mounted := true, pid := some env.mountPid, error := none },
          Except.ok ())) := by
  refine ⟨?_, ?_, ?_, ?_⟩
  · intro hcli
    rw [mountOverlay.eq_def, if_neg (by simp [hm]), if_pos (by simp [hcli])]
  · intro hcli hinit hstderr
    rw [mountOverlay.eq_def, if_neg (by simp [hm]), if_neg (by simp [hcli]),
      if_pos ⟨hinit, by simp [hstderr]⟩]
  · intro msg hcli hinit hver
    rw [mountOverlay.eq_def, if_neg (by simp [hm]), if_neg (by simp [hcli]),
      if_neg (by rcases hinit with h | h <;> simp [h]), hver]
  · intro hcli hinit hver
    rw [mountOverlay.eq_def, if_neg (by simp [hm]), if_neg (by simp [hcli]),
      if_neg (by rcases hinit with h | h <;> simp [h]), hver]

/-- Witness for the amended C5: the CLI-missing path at the sample
`MountInfo`, and a successful mount at an environment whose verification
passes. -/
theorem c5_amended_mount_error_field_witness :
    mountOverlay m0 envNoCli =
      (m0, Except.error
        "AgentFS CLI not found. Install with: cargo install agentfs-cli".data) ∧
    mountOverlay m0 ⟨true, 0, [], 7, none⟩ =
      ({ m0 with mounted := true, pid := some 7, error := none }, Except.ok ()) :=
  ⟨(c5_amended_mount_error_field m0 envNoCli rfl).1 rfl,
   (c5_amended_mount_error_field m0 ⟨true, 0, [], 7, none⟩ rfl).2.2.2 rfl (Or.inl rfl) rfl⟩

/-- **C8**: `unmountOverlay` never throws (it is a total function of the
`MountInfo` and the command outcomes: every unmount-command failure is
swallowed by the nested `try`/`catch` blocks); on a non-mounted `MountInfo`
it is a no-op that invokes no external command; and on a mounted one it
unconditionally clears `mounted` and `pid`, whatever the commands did. -/
theorem c8_unmount_best_effort (m : MountInfo) (env : UnmountEnv) :
    (m.mounted = false → unmountOverlay m env = (m, [])) ∧
    (m.mounted = true →
      (unmountOverlay m env).1.mounted = false ∧ (unmountOverlay m env).1.pid = none) := by
  constructor
  · intro hm
    rw [unmountOverlay, if_pos (by simp [hm])]
  · intro hm
    rw [unmountOverlay, if_neg (by simp [hm])]
    exact ⟨rfl, rfl⟩

/-- Witness for C8: a non-mounted sample is a no-op with no commands; a
mounted sample ends unmounted with `pid` cleared even when both unmount
commands fail. -/
theorem c8_unmount_best_effort_witness :
    unmountOverlay m0 ⟨true, Except.error "spawn failed", Except.error "spawn failed"⟩
      = (m0, []) ∧
    ((unmountOverlay { m0 with mounted := true, pid := some 7 }
        ⟨true, Except.ok 1, Except.ok 1⟩).1.mounted = false ∧
      (unmountOverlay { m0 with mounted := true, pid := some 7 }
        ⟨true, Except.ok 1, Except.ok 1⟩).1.pid = none) :=
  ⟨(c8_unmount_best_effort m0
      ⟨true, Except.error "spawn failed", Except.error "spawn failed"⟩).1 rfl,
   (c8_unmount_best_effort { m0 with mounted := true, pid := some 7 }
      ⟨true, Except.ok 1, Except.ok 1⟩).2 rfl⟩

end AgentFS
